import Mathlib

/-!
# Verification of the pocket-ledger statement normalizer and aggregation views

Shallow embedding of the bank-statement import pipeline
(`src/components/dashboard/BankStatementImport.tsx`, `parseExcelFile`),
the monthly trends aggregation (`src/components/dashboard/MonthlyTrends.tsx`,
`loadMonthlyData`) and the category expense breakdown
(`src/components/dashboard/ExcelExport.tsx`, `loadExpenseData`).

Conventions of the embedding:
* Spreadsheet cell values are strings or numbers (`CellValue`); JavaScript
  numbers are embedded as rationals (the spec treats monetary values as exact
  decimals), and `NaN` results of `parseFloat` are embedded as `none` of
  `Option ℚ` (every comparison with `NaN` is false, matching `posQ none =
  false`).
* A row decoded by `XLSX.utils.sheet_to_json` is a finite map from column
  names to cell values, embedded as an association list with distinct keys
  looked up by `getVal`.
* JavaScript truthiness of a cell value (`truthy`): the empty string and the
  number 0 are falsy, everything else truthy; an absent key is falsy.
* `new Date(v).toISOString().split('T')[0]` is embedded by `jsDateIso`:
  a numeric cell is epoch milliseconds and is a valid date whenever it lies
  within the ECMA-262 time range; a string cell parses exactly when it is a
  valid `YYYY-MM-DD` date (the ECMA-262 Date Time String Format date form,
  the only string form whose parsing is specified portably; every other
  string is embedded as unparseable, i.e. `new Date` yields an Invalid Date
  and `toISOString` throws a `RangeError`).  The embedding keeps the parsed
  date (`DateVal`) rather than its printed ISO form: ISO formatting is
  injective on valid dates and no claim inspects the printed text.
-/

namespace PocketLedger

/-- A spreadsheet cell value as produced by `sheet_to_json`: a string or a
number (JavaScript numbers embedded as rationals). -/
inductive CellValue where
  | str (s : String)
  | num (q : ℚ)
deriving DecidableEq, Repr

/-- JavaScript truthiness of a cell value: `""` and `0` are falsy. -/
def truthy : CellValue → Bool
  | .str s => s != ""
  | .num q => q != 0

/-- A raw row: an association list from column-name to cell value
(`row.K` is the value of the first binding of key `K`). -/
def Row := List (String × CellValue)

/-- `row.K`: the value bound to key `K`, if any. -/
def getVal (r : Row) (k : String) : Option CellValue :=
  (r.find? (fun p => p.1 == k)).map (fun p => p.2)

/-- `row.K1 || row.K2 || ...`: the first key in probe order whose value is
truthy; all-falsy chains are collapsed to `none` (the code only ever tests
the chain's result for truthiness or feeds it to `toString`/`new Date`
under a truthiness guard). -/
def resolve (r : Row) : List String → Option CellValue
  | [] => none
  | k :: ks =>
    match getVal r k with
    | some v => if truthy v then some v else resolve r ks
    | none => resolve r ks

/-- The date column probe order of `parseExcelFile` (line 53). -/
def dateKeys : List String :=
  ["Date", "date", "DATE", "Transaction Date", "transaction_date"]

/-- The description column probe order (line 54). -/
def descKeys : List String :=
  ["Description", "description", "DESCRIPTION", "Narration", "narration"]

/-- The generic amount column probe order (line 55). -/
def amountKeys : List String := ["Amount", "amount", "AMOUNT"]

/-- The debit column probe order (line 56). -/
def debitKeys : List String := ["Debit", "debit", "DEBIT"]

/-- The credit column probe order (line 57). -/
def creditKeys : List String := ["Credit", "credit", "CREDIT"]

/-- Decimal digits to a natural number. -/
def digitsToNat (cs : List Char) : ℕ :=
  cs.foldl (fun n c => 10 * n + (c.toNat - '0'.toNat)) 0

/-- JavaScript `parseFloat`: skip leading whitespace, an optional sign, then
the longest prefix `digits [. digits]` (at least one digit overall); `none`
is `NaN`.  (The exponent and `Infinity` forms of `parseFloat` are not
exercised by the sources under verification and are not modelled.) -/
def jsParseFloat (s : String) : Option ℚ :=
  let cs := s.toList.dropWhile (fun c => c.isWhitespace)
  let signAndRest : Bool × List Char :=
    match cs with
    | '-' :: rest => (true, rest)
    | '+' :: rest => (false, rest)
    | _ => (false, cs)
  let neg := signAndRest.1
  let intPart := signAndRest.2.takeWhile (fun c => c.isDigit)
  let afterInt := signAndRest.2.dropWhile (fun c => c.isDigit)
  let fracPart :=
    match afterInt with
    | '.' :: rest => rest.takeWhile (fun c => c.isDigit)
    | _ => []
  if intPart.isEmpty && fracPart.isEmpty then none
  else
    let v : ℤ := (digitsToNat intPart * 10 ^ fracPart.length + digitsToNat fracPart : ℕ)
    some (mkRat (if neg then -v else v) (10 ^ fracPart.length))

/-- `s.replace(/[^\d.-]/g, '')`: keep only digits, `.` and `-`. -/
def stripAmount (s : String) : String :=
  ⟨s.toList.filter (fun c => c.isDigit || c == '.' || c == '-')⟩

/-- `parseFloat(v.toString())`.  For a numeric cell the round trip through
`toString` is exact, so the value itself is returned. -/
def cellNumber (v : CellValue) : Option ℚ :=
  match v with
  | .str s => jsParseFloat s
  | .num q => some q

/-- `parseFloat(v.toString().replace(/[^\d.-]/g, ''))`.  The `toString` of a
number in the non-exponential range consists of digits, `.` and `-` only, so
stripping is the identity on numeric cells. -/
def cellNumberStripped (v : CellValue) : Option ℚ :=
  match v with
  | .str s => jsParseFloat (stripAmount s)
  | .num q => some q

/-- `x > 0` on a possibly-NaN number: false for `NaN`. -/
def posQ : Option ℚ → Bool
  | some q => decide (0 < q)
  | none => false

/-- Transaction direction. -/
inductive TxType where
  | income
  | expense
deriving DecidableEq, Repr

/-- A parsed calendar date, kept in parsed form (see the module comment):
either epoch milliseconds from a numeric cell or the fields of a `YYYY-MM-DD`
string. -/
inductive DateVal where
  | fromMs (ms : ℚ)
  | fromIso (y m d : ℕ)
deriving DecidableEq, Repr

/-- Gregorian leap year. -/
def isLeap (y : ℕ) : Bool :=
  (y % 4 == 0 && y % 100 != 0) || y % 400 == 0

/-- Days in a month, as ECMA-262 validates the day field of an ISO string. -/
def daysInMonth (y m : ℕ) : ℕ :=
  if m == 2 then (if isLeap y then 29 else 28)
  else if m == 4 || m == 6 || m == 9 || m == 11 then 30
  else 31

/-- Parse a `YYYY-MM-DD` string with a valid month and day. -/
def parseIsoDate (s : String) : Option (ℕ × ℕ × ℕ) :=
  match s.toList with
  | [y1, y2, y3, y4, '-', m1, m2, '-', d1, d2] =>
    if (y1.isDigit && y2.isDigit && y3.isDigit && y4.isDigit &&
        m1.isDigit && m2.isDigit && d1.isDigit && d2.isDigit) then
      let y := digitsToNat [y1, y2, y3, y4]
      let m := digitsToNat [m1, m2]
      let d := digitsToNat [d1, d2]
      if 1 ≤ m && m ≤ 12 && 1 ≤ d && d ≤ daysInMonth y m then
        some (y, m, d)
      else none
    else none
  | _ => none

/-- The ECMA-262 time range (|milliseconds| ≤ 8.64e15). -/
def ecmaMaxMs : ℚ := 8640000000000000

/-- `new Date(v).toISOString().split('T')[0]`, kept in parsed form: `some`
exactly when `new Date(v)` is a valid date, `none` when `toISOString` would
throw a `RangeError` on an Invalid Date. -/
def jsDateIso (v : CellValue) : Option DateVal :=
  match v with
  | .num q => if |q| ≤ ecmaMaxMs then some (.fromMs q) else none
  | .str s => (parseIsoDate s).map (fun p => .fromIso p.1 p.2.1 p.2.2)

/-- A normalized transaction (`ParsedTransaction` of the source).  The
`description` keeps the cell value it was converted from (`toString` at the
boundary). -/
structure Tx where
  date : DateVal
  description : CellValue
  amount : ℚ
  type : TxType
deriving DecidableEq, Repr

/-- Lines 60–74 of `parseExcelFile`: derive the (possibly-NaN) magnitude and
direction from the resolved amount, debit and credit chain results.
* Single-amount path: magnitude `Math.abs(parseFloat(stripped))`, direction
  `income` iff `parseFloat(raw.toString()) > 0` — note the direction test
  parses the *unstripped* string.
* Debit/credit path (taken when the amount chain is falsy and at least one
  of debit/credit is truthy): debit first, then credit, each taken when its
  raw parse is strictly positive.
* Otherwise the defaults `amount = 0`, `type = 'expense'` stand. -/
def amountAndType (amountValue debitValue creditValue : Option CellValue) :
    Option ℚ × TxType :=
  match amountValue with
  | some av =>
    ((cellNumberStripped av).map (fun q => |q|),
     if posQ (cellNumber av) then .income else .expense)
  | none =>
    match debitValue with
    | some dv =>
      if posQ (cellNumber dv) then (cellNumber dv, .expense)
      else
        match creditValue with
        | some cv =>
          if posQ (cellNumber cv) then (cellNumber cv, .income)
          else (some 0, .expense)
        | none => (some 0, .expense)
    | none =>
      match creditValue with
      | some cv =>
        if posQ (cellNumber cv) then (cellNumber cv, .income)
        else (some 0, .expense)
      | none => (some 0, .expense)

/-- The body of the `jsonData.forEach` callback (lines 51–85) for one row:
`.ok (some t)` when the row is pushed, `.ok none` when it is skipped, and
`.error` when `toISOString` throws on an Invalid Date (which happens inside
the push, i.e. only after `amount > 0` passed). -/
def normRow (r : Row) : Except String (Option Tx) :=
  match resolve r dateKeys, resolve r descKeys with
  | some dv, some desc =>
    match (amountAndType (resolve r amountKeys) (resolve r debitKeys)
        (resolve r creditKeys)).1 with
    | some a =>
      if 0 < a then
        match jsDateIso dv with
        | some d =>
          .ok (some ⟨d, desc, a,
            (amountAndType (resolve r amountKeys) (resolve r debitKeys)
              (resolve r creditKeys)).2⟩)
        | none => .error "Invalid time value"
      else .ok none
    | none => .ok none
  | some _, none => .ok none
  | none, _ => .ok none

/-- The `forEach` loop with its `transactions.push` accumulator; an exception
raised by any row propagates to the surrounding `try`/`catch` and rejects the
whole parse. -/
def normalizeGo : List Row → List Tx → Except String (List Tx)
  | [], acc => .ok acc
  | r :: rs, acc =>
    match normRow r with
    | .error e => .error e
    | .ok none => normalizeGo rs acc
    | .ok (some t) => normalizeGo rs (acc ++ [t])

/-- `parseExcelFile`'s row-normalization pass over the decoded rows
(`resolve(transactions)` on success, `reject(error)` on a raised error). -/
def normalize (rows : List Row) : Except String (List Tx) :=
  normalizeGo rows []

/-- True exactly when the `forEach` body raises on this row: both required
fields truthy, derived magnitude positive, and the date value unparseable. -/
def rowThrows (r : Row) : Bool :=
  match resolve r dateKeys, resolve r descKeys with
  | some dv, some _ =>
    (match (amountAndType (resolve r amountKeys) (resolve r debitKeys)
        (resolve r creditKeys)).1 with
     | some a => decide (0 < a) && (jsDateIso dv).isNone
     | none => false)
  | _, _ => false

/-- The per-row partial function normalize computes on its success path. -/
def rowTx (r : Row) : Option Tx :=
  match normRow r with
  | .ok o => o
  | .error _ => none

/-!
## Monthly trends aggregation (`MonthlyTrends.tsx`, `loadMonthlyData`)

A transaction's calendar month is embedded as the integer `12 * year +
monthIndex` (`MTx.ym`): the query filter `date >= firstDay && date <=
lastDay` over the first/last day of a month holds of exactly the dates in
that calendar month, so the embedding compares month indices.  The loop
`for (let i = 5; i >= 0; i--)` builds the six trailing month buckets
oldest-first; `new Date(y, m - i, 1)` normalizes month overflow, which the
integer month index does by construction.
-/

/-- A stored transaction as fetched by `loadMonthlyData` (`amount, type`
plus its date's month index used by the range filter). -/
structure MTx where
  ym : ℤ
  amount : ℚ
  type : TxType
deriving DecidableEq, Repr

/-- One entry of the chart data (`MonthlyData` of the source). -/
structure MonthlyData where
  month : String
  income : ℚ
  expenses : ℚ
  net : ℚ
deriving DecidableEq, Repr

/-- `toLocaleDateString('en-US', { month: 'short' })` month names. -/
def monthNames : List String :=
  ["Jan", "Feb", "Mar", "Apr", "May", "Jun",
   "Jul", "Aug", "Sep", "Oct", "Nov", "Dec"]

/-- Two-digit year of `{ year: '2-digit' }`. -/
def pad2 (n : ℤ) : String :=
  if n < 10 then "0" ++ toString n else toString n

/-- The label `"Mon YY"` of a month index. -/
def monthLabel (ym : ℤ) : String :=
  monthNames.getD (ym.emod 12).toNat "" ++ " " ++ pad2 ((ym.ediv 12).emod 100)

/-- One month bucket: filter the month's transactions, sum income and
expense independently (`reduce((sum, t) => sum + Number(t.amount), 0)`),
`net = income - expenses`. -/
def monthEntry (txs : List MTx) (m : ℤ) : MonthlyData :=
  let data := txs.filter (fun t => t.ym == m)
  let income := (data.filter (fun t => t.type == .income)).foldl
    (fun sum t => sum + t.amount) 0
  let expenses := (data.filter (fun t => t.type == .expense)).foldl
    (fun sum t => sum + t.amount) 0
  ⟨monthLabel m, income, expenses, income - expenses⟩

/-- `loadMonthlyData` over the fetched transaction set, anchored at the
current month index `cur`: the loop `for (let i = 5; i >= 0; i--)` visits
the months `cur - 5 … cur` oldest first. -/
def loadMonthlyData (cur : ℤ) (txs : List MTx) : List MonthlyData :=
  ([5, 4, 3, 2, 1, 0] : List ℤ).map (fun i => monthEntry txs (cur - i))

/-!
## Category expense breakdown (`ExcelExport.tsx`, `loadExpenseData`)

The query fetches the current user's expense transactions of the current
month together with their category's `name` and `color` (both absent for an
uncategorized transaction); the embedding takes the fetched row set as
input, with the `type = 'expense'` filter of the query applied explicitly.
`Map<string, {amount, color}>` iterates in insertion order, embedded as an
association list to which new groups are appended.
-/

/-- A fetched transaction row: `amount` plus `categories?.name` /
`categories?.color` (absent when the join found no category). -/
structure StoredTx where
  amount : ℚ
  type : TxType
  categoryName : Option String
  categoryColor : Option String
deriving DecidableEq, Repr

/-- One slice of the chart (`ExpenseData` of the source). -/
structure ExpenseData where
  name : String
  value : ℚ
  color : String
deriving DecidableEq, Repr

/-- The fixed fallback palette (lines 242–250). -/
def FALLBACK_COLORS : List String :=
  ["#8884d8", "#82ca9d", "#ffc658", "#ff7300", "#8dd1e1", "#d084d0", "#87d068"]

/-- `transaction.categories?.name || 'Uncategorized'`. -/
def groupName (t : StoredTx) : String :=
  match t.categoryName with
  | some n => if n = "" then "Uncategorized" else n
  | none => "Uncategorized"

/-- `transaction.categories?.color || '#6b7280'`. -/
def groupColor (t : StoredTx) : String :=
  match t.categoryColor with
  | some c => if c = "" then "#6b7280" else c
  | none => "#6b7280"

/-- One (insertion-ordered) entry of the category map. -/
structure CatGroup where
  name : String
  amount : ℚ
  color : String
deriving DecidableEq, Repr

/-- `categoryMap.has(name) ? map.get(name).amount += a : map.set(name,
{amount, color})`: update the existing group's amount (keeping its
first-seen color) or append a new group at the end. -/
def addToMap (m : List CatGroup) (n : String) (a : ℚ) (c : String) :
    List CatGroup :=
  match m with
  | [] => [⟨n, a, c⟩]
  | g :: gs =>
    if g.name == n then ⟨g.name, g.amount + a, g.color⟩ :: gs
    else g :: addToMap gs n a c

/-- The `data.forEach` grouping pass. -/
def buildMap (rows : List StoredTx) : List CatGroup :=
  rows.foldl (fun m t => addToMap m (groupName t) t.amount (groupColor t)) []

/-- Stable insert of the head element before the first strictly smaller
value: the earlier element goes first on ties. -/
def insertDesc (x : ExpenseData) : List ExpenseData → List ExpenseData
  | [] => [x]
  | y :: ys => if y.value ≤ x.value then x :: y :: ys else y :: insertDesc x ys

/-- `.sort((a, b) => b.value - a.value)`: the (ES2019-stable) sort by value
descending, ties kept in pre-sort order. -/
def sortByValueDesc : List ExpenseData → List ExpenseData
  | [] => []
  | x :: xs => insertDesc x (sortByValueDesc xs)

/-- `Array.from(categoryMap.entries()).map(([name, data], index) => ({name,
value: data.amount, color: data.color || FALLBACK_COLORS[index % 7]}))
.sort(...)`. -/
def chartData (rows : List StoredTx) : List ExpenseData :=
  sortByValueDesc ((buildMap rows).enum.map (fun p =>
    ⟨p.2.name, p.2.amount,
     if p.2.color = "" then FALLBACK_COLORS.getD (p.1 % FALLBACK_COLORS.length) ""
     else p.2.color⟩))

/-- `loadExpenseData`: the expense filter of the fetch query followed by the
grouping, color assignment and sort. -/
def loadExpenseData (txs : List StoredTx) : List ExpenseData :=
  chartData (txs.filter (fun t => t.type == .expense))

/-!
## Normalizer lemmas
-/

theorem normRow_of_rowThrows (r : Row) (h : rowThrows r = true) :
    normRow r = .error "Invalid time value" := by
  unfold rowThrows at h
  unfold normRow
  cases hd : resolve r dateKeys with
  | none => rw [hd] at h; simp at h
  | some dv =>
    cases he : resolve r descKeys with
    | none => rw [hd, he] at h; simp at h
    | some desc =>
      rw [hd, he] at h
      simp only at h ⊢
      cases ha : (amountAndType (resolve r amountKeys) (resolve r debitKeys)
          (resolve r creditKeys)).1 with
      | none => rw [ha] at h; simp at h
      | some a =>
        rw [ha] at h
        simp only [Bool.and_eq_true, decide_eq_true_eq, Option.isNone_iff_eq_none] at h
        simp [h.1, h.2]

theorem normRow_of_not_rowThrows (r : Row) (h : rowThrows r = false) :
    normRow r = .ok (rowTx r) := by
  have hex : ∃ o, normRow r = .ok o := by
    unfold rowThrows at h
    unfold normRow
    cases hd : resolve r dateKeys with
    | none => exact ⟨none, rfl⟩
    | some dv =>
      cases he : resolve r descKeys with
      | none => exact ⟨none, rfl⟩
      | some desc =>
        rw [hd, he] at h
        simp only at h ⊢
        cases ha : (amountAndType (resolve r amountKeys) (resolve r debitKeys)
            (resolve r creditKeys)).1 with
        | none => exact ⟨none, rfl⟩
        | some a =>
          rw [ha] at h
          simp only [Bool.and_eq_false_iff, decide_eq_false_iff_not] at h
          by_cases hpos : 0 < a
          · rcases h with h | h
            · exact absurd hpos h
            · cases hj : jsDateIso dv with
              | none => rw [hj] at h; simp at h
              | some d =>
              exact ⟨some ⟨d, desc, a,
                (amountAndType (resolve r amountKeys) (resolve r debitKeys)
                  (resolve r creditKeys)).2⟩, by simp [hpos, hj]⟩
          · exact ⟨none, by simp [hpos]⟩
  obtain ⟨o, ho⟩ := hex
  rw [ho]
  unfold rowTx
  rw [ho]

theorem rowTx_eq_of_normRow (r : Row) (o : Option Tx)
    (h : normRow r = .ok o) : rowTx r = o := by
  unfold rowTx
  rw [h]

theorem normalizeGo_ok (rows : List Row) : ∀ (acc ts : List Tx),
    normalizeGo rows acc = .ok ts → ts = acc ++ rows.filterMap rowTx := by
  induction rows with
  | nil =>
    intro acc ts h
    unfold normalizeGo at h
    cases h
    simp
  | cons r rs ih =>
    intro acc ts h
    unfold normalizeGo at h
    cases hn : normRow r with
    | error e => rw [hn] at h; cases h
    | ok o =>
      rw [hn] at h
      have hr := rowTx_eq_of_normRow r o hn
      cases o with
      | none =>
        simp only at h
        rw [ih acc ts h, List.filterMap_cons, hr]
      | some t =>
        simp only at h
        rw [ih (acc ++ [t]) ts h, List.filterMap_cons, hr]
        simp

theorem normalizeGo_isOk_iff (rows : List Row) : ∀ (acc : List Tx),
    (∃ ts, normalizeGo rows acc = .ok ts) ↔ ∀ r ∈ rows, rowThrows r = false := by
  induction rows with
  | nil =>
    intro acc
    simp [normalizeGo]
  | cons r rs ih =>
    intro acc
    constructor
    · rintro ⟨ts, h⟩ r' hr'
      unfold normalizeGo at h
      cases hthrow : rowThrows r with
      | true => rw [normRow_of_rowThrows r hthrow] at h; cases h
      | false =>
        rw [normRow_of_not_rowThrows r hthrow] at h
        rcases List.mem_cons.mp hr' with rfl | hm
        · exact hthrow
        · cases ho : rowTx r with
          | none => rw [ho] at h; exact ((ih acc).mp ⟨ts, h⟩) r' hm
          | some t => rw [ho] at h; exact ((ih (acc ++ [t])).mp ⟨ts, h⟩) r' hm
    · intro hall
      have hr := hall r (List.mem_cons_self r rs)
      have hrs : ∀ r' ∈ rs, rowThrows r' = false :=
        fun r' hm => hall r' (List.mem_cons_of_mem r hm)
      unfold normalizeGo
      rw [normRow_of_not_rowThrows r hr]
      cases ho : rowTx r with
      | none => exact (ih acc).mpr hrs
      | some t => exact (ih (acc ++ [t])).mpr hrs

theorem normRow_ok_some_pos (r : Row) (t : Tx)
    (h : normRow r = .ok (some t)) : 0 < t.amount := by
  unfold normRow at h
  cases hd : resolve r dateKeys with
  | none => rw [hd] at h; cases h
  | some dv =>
    cases he : resolve r descKeys with
    | none => rw [hd, he] at h; cases h
    | some desc =>
      rw [hd, he] at h
      simp only at h
      cases ha : (amountAndType (resolve r amountKeys) (resolve r debitKeys)
          (resolve r creditKeys)).1 with
      | none => rw [ha] at h; cases h
      | some a =>
        rw [ha] at h
        simp only at h
        by_cases hpos : 0 < a
        · rw [if_pos hpos] at h
          cases hj : jsDateIso dv with
          | none => rw [hj] at h; cases h
          | some d =>
            rw [hj] at h
            cases h
            exact hpos
        · rw [if_neg hpos] at h; cases h

/-- The internals of a pushed transaction: the resolved fields it was built
from, with the amount/type pair computed by `amountAndType`. -/
theorem normRow_ok_some_spec (r : Row) (t : Tx)
    (h : normRow r = .ok (some t)) :
    ∃ dv, resolve r dateKeys = some dv ∧
      resolve r descKeys = some t.description ∧
      jsDateIso dv = some t.date ∧
      (amountAndType (resolve r amountKeys) (resolve r debitKeys)
        (resolve r creditKeys)).1 = some t.amount ∧
      (amountAndType (resolve r amountKeys) (resolve r debitKeys)
        (resolve r creditKeys)).2 = t.type := by
  unfold normRow at h
  cases hd : resolve r dateKeys with
  | none => rw [hd] at h; cases h
  | some dv =>
    cases he : resolve r descKeys with
    | none => rw [hd, he] at h; cases h
    | some desc =>
      rw [hd, he] at h
      simp only at h
      cases ha : (amountAndType (resolve r amountKeys) (resolve r debitKeys)
          (resolve r creditKeys)).1 with
      | none => rw [ha] at h; cases h
      | some a =>
        rw [ha] at h
        simp only at h
        by_cases hpos : 0 < a
        · rw [if_pos hpos] at h
          cases hj : jsDateIso dv with
          | none => rw [hj] at h; cases h
          | some d =>
            rw [hj] at h
            cases h
            exact ⟨dv, rfl, rfl, hj, rfl, rfl⟩
        · rw [if_neg hpos] at h; cases h

theorem normRow_of_rowTx (r : Row) (t : Tx) (h : rowTx r = some t) :
    normRow r = .ok (some t) := by
  unfold rowTx at h
  cases hn : normRow r with
  | error e => rw [hn] at h; simp at h
  | ok o =>
    rw [hn] at h
    simp only at h
    rw [h]

/-- `k` is a key of the row whose value is truthy. -/
def truthyKey (r : Row) (k : String) : Bool :=
  match getVal r k with
  | some v => truthy v
  | none => false

/-!
## Sample rows for the concrete scenarios
-/

/-- A well-formed row: ISO date, description, plain positive amount. -/
def benignRow : Row :=
  [("Date", .str "2024-05-01"), ("Description", .str "Coffee"),
   ("Amount", .str "5")]

/-- A row whose date cell parses as no date but whose amount is positive:
`new Date('not a date').toISOString()` throws. -/
def badDateRow : Row :=
  [("Date", .str "not a date"), ("Description", .str "Fee"),
   ("Amount", .str "5")]

/-- An amount cell with a currency symbol: stripping yields `100`, but the
direction test parses the unstripped text, so `parseFloat('$100')` is `NaN`. -/
def currencyAmountRow : Row :=
  [("Date", .str "2024-05-01"), ("Description", .str "Coffee"),
   ("Amount", .str "$100")]

/-- A negative plain amount: magnitude 20, direction expense. -/
def negAmountRow : Row :=
  [("Date", .str "2024-05-01"), ("Description", .str "Refund"),
   ("Amount", .str "-20")]

/-- A row with an `Amount` column holding `0` (falsy) next to a positive
`Debit` column. -/
def zeroAmountDebitRow : Row :=
  [("Date", .str "2024-05-01"), ("Description", .str "Fee"),
   ("Amount", .num 0), ("Debit", .num 50)]

/-- A row where the first date variant `Date` is present but falsy (`0`)
and the second variant `date` holds a parseable date. -/
def falsyDateRow : Row :=
  [("Date", .num 0), ("date", .str "2024-05-02"),
   ("Description", .str "Rent"), ("Amount", .str "5")]

/-!
## Claims C1–C4, C9, C10 (statement normalizer)
-/

/-- C1, counterexample: the claim says a row with an unparseable date is
discarded while the remaining rows are still normalized and emitted.  In
fact `new Date(...).toISOString()` throws inside the row loop, the error
propagates to the surrounding `try`/`catch`, and the whole parse is
rejected: the same benign row that normalizes fine on its own is lost when
a bad-date row accompanies it. -/
theorem c1_counterexample :
    normalize [benignRow, badDateRow] = Except.error "Invalid time value" ∧
    normalize [benignRow] =
      Except.ok [⟨.fromIso 2024 5 1, .str "Coffee", 5, .income⟩] :=
  ⟨rfl, rfl⟩

/-- C1, amended: normalize never fails because of a row that is merely
missing fields or has a non-positive magnitude (such rows are skipped), but
it fails as a whole — discarding every row — exactly when some row has
truthy date and description, a positive derived magnitude, and a date value
that fails to parse (`rowThrows`). -/
theorem c1_normalize_ok_iff_rows_benign (rows : List Row) :
    (∃ ts, normalize rows = Except.ok ts) ↔ ∀ r ∈ rows, rowThrows r = false :=
  normalizeGo_isOk_iff rows []

/-- C2, counterexample: for the amount cell `"$100"` the stripped parse is
`100 > 0`, so the claim requires `kind = income`; the code classifies the
row as an expense because the direction test parses the unstripped string
(`parseFloat('$100')` is `NaN`). -/
theorem c2_counterexample :
    normalize [currencyAmountRow] =
      Except.ok [⟨.fromIso 2024 5 1, .str "Coffee", 100, .expense⟩] ∧
    jsParseFloat (stripAmount "$100") = some 100 ∧ ((0 : ℚ) < 100) :=
  ⟨rfl, rfl, by norm_num⟩

/-- C2, amended: on the single-amount path, the magnitude is the absolute
value of the number parsed from the stripped string, but the direction is
`income` iff `parseFloat` applied to the **unstripped** cell text is
strictly positive (`NaN` and zero both map to `expense`). -/
theorem c2_single_amount_path (r : Row) (av : CellValue) (t : Tx)
    (hav : resolve r amountKeys = some av)
    (ht : normRow r = .ok (some t)) :
    (cellNumberStripped av).map (fun q => |q|) = some t.amount ∧
    (t.type = .income ↔ posQ (cellNumber av) = true) := by
  obtain ⟨dv, -, -, -, ha, hty⟩ := normRow_ok_some_spec r t ht
  rw [hav] at ha hty
  unfold amountAndType at ha hty
  simp only at ha hty
  refine ⟨ha, ?_⟩
  by_cases hp : posQ (cellNumber av) = true
  · rw [hp, if_pos rfl] at hty
    simp [← hty, hp]
  · simp only [Bool.not_eq_true] at hp
    rw [hp] at hty
    simp only [Bool.false_eq_true, if_false] at hty
    simp [← hty, hp]

theorem c2_single_amount_path_witness :
    (cellNumberStripped (.str "-20")).map (fun q => |q|) = some ((20 : ℚ)) ∧
    ((⟨.fromIso 2024 5 1, .str "Refund", 20, .expense⟩ : Tx).type = .income ↔
      posQ (cellNumber (.str "-20")) = true) :=
  c2_single_amount_path negAmountRow (.str "-20")
    ⟨.fromIso 2024 5 1, .str "Refund", 20, .expense⟩ rfl rfl

/-- C3, counterexample: the claim says the debit/credit path is used only
when no generic Amount-variant column is found.  Here the `Amount` column
is present (value `0`), yet the row is normalized through the debit path,
because the resolution chain `row.Amount || row.amount || row.AMOUNT` skips
falsy values. -/
theorem c3_counterexample :
    getVal zeroAmountDebitRow "Amount" = some (.num 0) ∧
    normalize [zeroAmountDebitRow] =
      Except.ok [⟨.fromIso 2024 5 1, .str "Fee", 50, .expense⟩] :=
  ⟨rfl, rfl⟩

/-- C3, amended: the debit/credit path is used only when no Amount-variant
column resolves to a truthy value; on that path a positive debit wins with
`(magnitude = debit, kind = expense)`, otherwise a positive credit yields
`(magnitude = credit, kind = income)` — debit is checked first. -/
theorem c3_debit_credit_path (r : Row) (t : Tx)
    (hno : resolve r amountKeys = none)
    (ht : normRow r = .ok (some t)) :
    (∀ dv, resolve r debitKeys = some dv → posQ (cellNumber dv) = true →
      cellNumber dv = some t.amount ∧ t.type = .expense) ∧
    ((∀ dv, resolve r debitKeys = some dv → posQ (cellNumber dv) = false) →
      ∀ cv, resolve r creditKeys = some cv → posQ (cellNumber cv) = true →
        cellNumber cv = some t.amount ∧ t.type = .income) := by
  obtain ⟨dv0, -, -, -, ha, hty⟩ := normRow_ok_some_spec r t ht
  rw [hno] at ha hty
  unfold amountAndType at ha hty
  constructor
  · intro dv hdv hp
    rw [hdv] at ha hty
    simp only [hp, if_pos] at ha hty
    exact ⟨ha, hty.symm⟩
  · intro hnd cv hcv hp
    cases hd : resolve r debitKeys with
    | some dv =>
      have hfalse := hnd dv hd
      rw [hd, hcv] at ha hty
      simp only [hfalse, Bool.false_eq_true, if_false, hp, if_pos] at ha hty
      exact ⟨ha, hty.symm⟩
    | none =>
      rw [hd, hcv] at ha hty
      simp only [hp, if_pos] at ha hty
      exact ⟨ha, hty.symm⟩

theorem c3_debit_credit_path_witness :
    (cellNumber (.num 50) =
      some (⟨.fromIso 2024 5 1, .str "Fee", 50, .expense⟩ : Tx).amount ∧
     (⟨.fromIso 2024 5 1, .str "Fee", 50, .expense⟩ : Tx).type = .expense) :=
  (c3_debit_credit_path zeroAmountDebitRow
    ⟨.fromIso 2024 5 1, .str "Fee", 50, .expense⟩ rfl rfl).1
    (.num 50) rfl rfl

/-- C4, confirmed: every transaction normalize emits has a strictly
positive amount — a row whose derived magnitude is not positive (including
rows with no amount information, whose defaults `amount = 0` stand) fails
the `amount > 0` guard and is never pushed. -/
theorem c4_amounts_positive (rows : List Row) (ts : List Tx)
    (h : normalize rows = Except.ok ts) : ∀ t ∈ ts, 0 < t.amount := by
  intro t ht
  have hts := normalizeGo_ok rows [] ts h
  rw [List.nil_append] at hts
  rw [hts] at ht
  rcases List.mem_filterMap.mp ht with ⟨r, -, hrt⟩
  exact normRow_ok_some_pos r t (normRow_of_rowTx r t hrt)

theorem c4_amounts_positive_witness :
    0 < (⟨.fromIso 2024 5 1, .str "Coffee", 5, .income⟩ : Tx).amount :=
  c4_amounts_positive [benignRow]
    [⟨.fromIso 2024 5 1, .str "Coffee", 5, .income⟩] rfl
    ⟨.fromIso 2024 5 1, .str "Coffee", 5, .income⟩ (by simp)

/-- C9, counterexample: the claim says the value of the first key present
in the row wins.  Here the first date variant `Date` is present with the
falsy value `0`, yet normalization uses the value of the later variant
`date`: the `||` chain skips present-but-falsy keys. -/
theorem c9_counterexample :
    getVal falsyDateRow "Date" = some (.num 0) ∧
    resolve falsyDateRow dateKeys = some (.str "2024-05-02") ∧
    normalize [falsyDateRow] =
      Except.ok [⟨.fromIso 2024 5 2, .str "Rent", 5, .income⟩] :=
  ⟨rfl, rfl, rfl⟩

/-- C9, amended: column resolution returns the value of the first key in
the fixed probe order whose value is truthy (a present key bound to `""` or
`0` is skipped, case variants are distinct literal keys); a row none of
whose date variants — or none of whose description variants — resolves to a
truthy value is discarded without failing. -/
theorem c9_probe_order (r : Row) (keys : List String) :
    resolve r keys = (keys.find? (fun k => truthyKey r k)).bind (getVal r) ∧
    ((resolve r dateKeys = none ∨ resolve r descKeys = none) →
      normRow r = .ok none) := by
  constructor
  · induction keys with
    | nil => rfl
    | cons k ks ih =>
      show resolve r (k :: ks) = _
      unfold resolve
      cases hv : getVal r k with
      | none =>
        have hk : truthyKey r k = false := by unfold truthyKey; rw [hv]
        simp [List.find?_cons, hk, ih]
      | some v =>
        have hk : truthyKey r k = truthy v := by unfold truthyKey; rw [hv]
        cases ht : truthy v with
        | true => simp [List.find?_cons, hk, ht, hv]
        | false => simp [List.find?_cons, hk, ht, ih]
  · intro h
    unfold normRow
    rcases h with h | h
    · rw [h]
    · cases hd : resolve r dateKeys with
      | none => rfl
      | some dv => rw [h]

/-- C10, confirmed: on success, normalization is a per-row filter-map —
each emitted transaction comes from exactly one input row, each row yields
at most one transaction, and the input order is preserved. -/
theorem c10_filter_map (rows : List Row) (ts : List Tx)
    (h : normalize rows = Except.ok ts) : ts = rows.filterMap rowTx := by
  have hts := normalizeGo_ok rows [] ts h
  rwa [List.nil_append] at hts

theorem c10_filter_map_witness :
    [(⟨.fromIso 2024 5 1, .str "Coffee", 5, .income⟩ : Tx)] =
      [benignRow].filterMap rowTx :=
  c10_filter_map [benignRow]
    [⟨.fromIso 2024 5 1, .str "Coffee", 5, .income⟩] rfl

/-!
## Claim C5 (monthly trends series)
-/

/-- C5, confirmed: for any anchor month and transaction set the series has
exactly the six trailing month buckets `cur-5 … cur` in that (oldest to
newest) order, every entry satisfies `net = income - expenses`, and a month
with no matching transactions still contributes an entry with all sums
zero. -/
theorem c5_monthly_series (cur : ℤ) (txs : List MTx) :
    loadMonthlyData cur txs =
      [monthEntry txs (cur - 5), monthEntry txs (cur - 4),
       monthEntry txs (cur - 3), monthEntry txs (cur - 2),
       monthEntry txs (cur - 1), monthEntry txs cur] ∧
    (loadMonthlyData cur txs).length = 6 ∧
    (∀ e ∈ loadMonthlyData cur txs, e.net = e.income - e.expenses) ∧
    (∀ m : ℤ, (∀ t ∈ txs, t.ym ≠ m) →
      monthEntry txs m = ⟨monthLabel m, 0, 0, 0⟩) := by
  refine ⟨?_, by simp [loadMonthlyData], ?_, ?_⟩
  · norm_num [loadMonthlyData]
  · intro e he
    simp only [loadMonthlyData, List.map_cons, List.map_nil, List.mem_cons,
      List.not_mem_nil, or_false] at he
    rcases he with rfl | rfl | rfl | rfl | rfl | rfl <;> rfl
  · intro m hm
    have hnil : txs.filter (fun t => t.ym == m) = [] := by
      rw [List.filter_eq_nil_iff]
      intro t ht
      simp [hm t ht]
    unfold monthEntry
    rw [hnil]
    norm_num

/-!
## Category map lemmas
-/

/-- The summed amount the category map holds for name `n` (0 when absent). -/
def amountOf (m : List CatGroup) (n : String) : ℚ :=
  match m.find? (fun g => g.name == n) with
  | some g => g.amount
  | none => 0

/-- The color the category map holds for name `n`. -/
def colorOf (m : List CatGroup) (n : String) : Option String :=
  (m.find? (fun g => g.name == n)).map (fun g => g.color)

/-- The names of the map's groups, in insertion order. -/
def namesOf (m : List CatGroup) : List String := m.map (fun g => g.name)

theorem addToMap_amountOf (n : String) (a : ℚ) (c : String) (x : String) :
    ∀ m : List CatGroup,
      amountOf (addToMap m n a c) x = amountOf m x + (if x = n then a else 0) := by
  intro m
  induction m with
  | nil =>
    by_cases h : x = n
    · simp [addToMap, amountOf, List.find?_cons, h]
    · have h2 : ¬n = x := fun e => h e.symm
      have hb : (n == x) = false := by simp [h2]
      simp [addToMap, amountOf, List.find?_cons, hb, h]
  | cons g gs ih =>
    by_cases hg : g.name = n
    · have hbg : (g.name == n) = true := by simp [hg]
      by_cases hx : g.name = x
      · have hxn : x = n := by rw [← hx, hg]
        have hbx : (g.name == x) = true := by simp [hx]
        simp [addToMap, amountOf, List.find?_cons, hbg, hbx, hxn]
      · have hxn : ¬x = n := by rw [← hg]; exact fun e => hx e.symm
        have hbx : (g.name == x) = false := by simp [hx]
        simp [addToMap, amountOf, List.find?_cons, hbg, hbx, hxn]
    · have hbg : (g.name == n) = false := by simp [hg]
      by_cases hx : g.name = x
      · have hxn : ¬x = n := by rw [← hx]; exact hg
        have hbx : (g.name == x) = true := by simp [hx]
        simp [addToMap, amountOf, List.find?_cons, hbg, hbx, hxn]
      · have hbx : (g.name == x) = false := by simp [hx]
        simp only [addToMap, amountOf, List.find?_cons, hbg, hbx,
          Bool.false_eq_true, if_false] at ih ⊢
        exact ih

theorem addToMap_colorOf (n : String) (a : ℚ) (c : String) (x : String) :
    ∀ m : List CatGroup,
      colorOf (addToMap m n a c) x =
        match colorOf m x with
        | some c0 => some c0
        | none => if x = n then some c else none := by
  intro m
  induction m with
  | nil =>
    by_cases h : x = n
    · simp [addToMap, colorOf, List.find?_cons, h]
    · have h2 : ¬n = x := fun e => h e.symm
      have hb : (n == x) = false := by simp [h2]
      simp [addToMap, colorOf, List.find?_cons, hb, h]
  | cons g gs ih =>
    by_cases hg : g.name = n
    · have hbg : (g.name == n) = true := by simp [hg]
      by_cases hx : g.name = x
      · have hbx : (g.name == x) = true := by simp [hx]
        simp [addToMap, colorOf, List.find?_cons, hbg, hbx]
      · have hxn : ¬x = n := by rw [← hg]; exact fun e => hx e.symm
        have hbx : (g.name == x) = false := by simp [hx]
        simp only [addToMap, colorOf, List.find?_cons, hbg, hbx, if_true,
          Bool.false_eq_true, if_false]
        cases hc : (gs.find? (fun g => g.name == x)).map (fun g => g.color) with
        | none => simp [hc, hxn]
        | some c0 => simp [hc]
    · have hbg : (g.name == n) = false := by simp [hg]
      by_cases hx : g.name = x
      · have hbx : (g.name == x) = true := by simp [hx]
        simp [addToMap, colorOf, List.find?_cons, hbg, hbx]
      · have hbx : (g.name == x) = false := by simp [hx]
        simp only [addToMap, colorOf, List.find?_cons, hbg, hbx,
          Bool.false_eq_true, if_false] at ih ⊢
        exact ih

theorem namesOf_addToMap (n : String) (a : ℚ) (c : String) :
    ∀ m : List CatGroup,
      namesOf (addToMap m n a c) =
        if n ∈ namesOf m then namesOf m else namesOf m ++ [n] := by
  intro m
  induction m with
  | nil => simp [addToMap, namesOf]
  | cons g gs ih =>
    by_cases hg : g.name = n
    · have hbg : (g.name == n) = true := by simp [hg]
      simp only [addToMap, hbg, if_true, namesOf, List.map_cons]
      rw [if_pos (by simp [namesOf, hg.symm])]
    · have hbg : (g.name == n) = false := by simp [hg]
      simp only [addToMap, hbg, Bool.false_eq_true, if_false, namesOf,
        List.map_cons, List.mem_cons]
      by_cases hmem : n ∈ namesOf gs
      · unfold namesOf at hmem ih
        rw [if_pos (Or.inr hmem)]
        rw [ih, if_pos hmem]
      · unfold namesOf at hmem ih
        rw [if_neg (by rintro (e | e); exact hg e.symm; exact hmem e)]
        rw [ih, if_neg hmem]
        simp

/-- The grouping step of `buildMap`, named for the fold lemmas. -/
def groupStep (m : List CatGroup) (t : StoredTx) : List CatGroup :=
  addToMap m (groupName t) t.amount (groupColor t)

theorem buildMap_eq_foldl (rows : List StoredTx) :
    buildMap rows = rows.foldl groupStep [] := rfl

theorem foldl_groupStep_amountOf (n : String) : ∀ (l : List StoredTx)
    (m : List CatGroup),
    amountOf (l.foldl groupStep m) n =
      amountOf m n +
        ((l.filter (fun t => groupName t == n)).map (fun t => t.amount)).sum := by
  intro l
  induction l with
  | nil => intro m; simp
  | cons t ts ih =>
    intro m
    rw [List.foldl_cons, ih]
    show amountOf (addToMap m (groupName t) t.amount (groupColor t)) n + _ = _
    rw [addToMap_amountOf]
    by_cases h : groupName t = n
    · have hb : (groupName t == n) = true := by simp [h]
      rw [List.filter_cons, if_pos hb, if_pos h.symm]
      simp only [List.map_cons, List.sum_cons]
      ring
    · have hb : (groupName t == n) = false := by simp [h]
      have h1 : ¬n = groupName t := fun e => h e.symm
      have h2 : ¬(groupName t == n) = true := by simp [hb]
      rw [List.filter_cons, if_neg h2, if_neg h1, add_zero]

theorem buildMap_amountOf (rows : List StoredTx) (n : String) :
    amountOf (buildMap rows) n =
      ((rows.filter (fun t => groupName t == n)).map (fun t => t.amount)).sum := by
  rw [buildMap_eq_foldl, foldl_groupStep_amountOf]
  show (0 : ℚ) + _ = _
  rw [zero_add]

theorem foldl_groupStep_colorOf (n : String) : ∀ (l : List StoredTx)
    (m : List CatGroup),
    colorOf (l.foldl groupStep m) n =
      match colorOf m n with
      | some c0 => some c0
      | none => (l.find? (fun t => groupName t == n)).map (fun t => groupColor t) := by
  intro l
  induction l with
  | nil =>
    intro m
    cases h : colorOf m n <;> simp [h]
  | cons t ts ih =>
    intro m
    rw [List.foldl_cons, ih]
    show (match colorOf (addToMap m (groupName t) t.amount (groupColor t)) n with
      | some c0 => some c0
      | none => _) = _
    rw [addToMap_colorOf]
    cases hm : colorOf m n with
    | some c0 => simp [hm]
    | none =>
      simp only [hm]
      by_cases h : groupName t = n
      · have hb : (groupName t == n) = true := by simp [h]
        rw [if_pos h.symm, List.find?_cons, hb]
        rfl
      · have hb : (groupName t == n) = false := by simp [h]
        have h1 : ¬n = groupName t := fun e => h e.symm
        rw [if_neg h1, List.find?_cons, hb]

theorem buildMap_colorOf (rows : List StoredTx) (n : String) :
    colorOf (buildMap rows) n =
      (rows.find? (fun t => groupName t == n)).map (fun t => groupColor t) := by
  rw [buildMap_eq_foldl, foldl_groupStep_colorOf]
  simp [colorOf]

theorem foldl_groupStep_nodup : ∀ (l : List StoredTx) (m : List CatGroup),
    (namesOf m).Nodup → (namesOf (l.foldl groupStep m)).Nodup := by
  intro l
  induction l with
  | nil => intro m h; exact h
  | cons t ts ih =>
    intro m h
    rw [List.foldl_cons]
    apply ih
    show (namesOf (addToMap m (groupName t) t.amount (groupColor t))).Nodup
    rw [namesOf_addToMap]
    by_cases hmem : groupName t ∈ namesOf m
    · rw [if_pos hmem]; exact h
    · rw [if_neg hmem]
      simp [List.nodup_append, h, hmem]

theorem buildMap_names_nodup (rows : List StoredTx) :
    (namesOf (buildMap rows)).Nodup := by
  rw [buildMap_eq_foldl]
  exact foldl_groupStep_nodup rows [] (by simp [namesOf])

theorem find?_name_of_mem : ∀ (m : List CatGroup) (g : CatGroup),
    (namesOf m).Nodup → g ∈ m →
    m.find? (fun h => h.name == g.name) = some g := by
  intro m
  induction m with
  | nil => intro g _ hg; cases hg
  | cons g0 gs ih =>
    intro g hnd hg
    rcases List.mem_cons.mp hg with rfl | hmem
    · rw [List.find?_cons]
      simp
    · have hnd2 : g0.name ∉ namesOf gs ∧ (namesOf gs).Nodup :=
        List.nodup_cons.mp (show (g0.name :: namesOf gs).Nodup from hnd)
      have hnames : g.name ∈ namesOf gs :=
        List.mem_map_of_mem (fun h => h.name) hmem
      have hne : ¬g0.name = g.name := by
        intro e
        apply hnd2.1
        rw [e]
        exact hnames
      have hb : (g0.name == g.name) = false := by simp [hne]
      rw [List.find?_cons, hb]
      exact ih g hnd2.2 hmem

theorem mem_insertDesc (x y : ExpenseData) : ∀ l : List ExpenseData,
    (y ∈ insertDesc x l ↔ y = x ∨ y ∈ l) := by
  intro l
  induction l with
  | nil => simp [insertDesc]
  | cons z zs ih =>
    unfold insertDesc
    by_cases h : z.value ≤ x.value
    · rw [if_pos h]
      simp [List.mem_cons]
    · rw [if_neg h]
      simp only [List.mem_cons, ih]
      tauto

theorem mem_sortByValueDesc (y : ExpenseData) : ∀ l : List ExpenseData,
    (y ∈ sortByValueDesc l ↔ y ∈ l) := by
  intro l
  induction l with
  | nil => simp [sortByValueDesc]
  | cons x xs ih =>
    unfold sortByValueDesc
    rw [mem_insertDesc]
    simp [ih]

theorem mem_enum_snd {α : Type} (p : ℕ × α) (l : List α) (h : p ∈ l.enum) :
    p.2 ∈ l := by
  have hmap := List.enumFrom_map_snd 0 l
  have : p.2 ∈ (l.enum).map Prod.snd := List.mem_map_of_mem Prod.snd h
  rwa [show l.enum = l.enumFrom 0 from rfl, hmap] at this

/-- Every group of the chart comes from a group of the category map, with
the same name and summed amount, the map color when it is non-empty, and
membership invariant under the final sort. -/
theorem mem_chartData (rows : List StoredTx) (g : ExpenseData)
    (hg : g ∈ chartData rows) :
    ∃ grp ∈ buildMap rows, g.name = grp.name ∧ g.value = grp.amount ∧
      (grp.color = "" ∨ g.color = grp.color) := by
  unfold chartData at hg
  rw [mem_sortByValueDesc] at hg
  rcases List.mem_map.mp hg with ⟨p, hp, rfl⟩
  refine ⟨p.2, mem_enum_snd p (buildMap rows) hp, rfl, rfl, ?_⟩
  by_cases h : p.2.color = ""
  · exact Or.inl h
  · right
    show (if p.2.color = "" then _ else p.2.color) = p.2.color
    rw [if_neg h]

/-!
## Claim C6 (category totals)
-/

/-- C6, confirmed: the breakdown of an empty transaction list is empty, and
every returned group's summed value is exactly the sum of the amounts of
the expense transactions whose (fallback-resolved) category name is the
group's name. -/
theorem c6_category_totals :
    loadExpenseData [] = [] ∧
    ∀ (txs : List StoredTx) (g : ExpenseData), g ∈ loadExpenseData txs →
      g.value = (((txs.filter (fun t => t.type == .expense)).filter
        (fun t => groupName t == g.name)).map (fun t => t.amount)).sum := by
  refine ⟨rfl, ?_⟩
  intro txs g hg
  unfold loadExpenseData at hg
  obtain ⟨grp, hgrp, hname, hvalue, -⟩ :=
    mem_chartData (txs.filter (fun t => t.type == .expense)) g hg
  have hfind := find?_name_of_mem (buildMap (txs.filter
    (fun t => t.type == .expense))) grp
    (buildMap_names_nodup _) hgrp
  have hamt : amountOf (buildMap (txs.filter (fun t => t.type == .expense)))
      grp.name = grp.amount := by
    unfold amountOf
    rw [hfind]
  rw [hvalue, hname, ← hamt, buildMap_amountOf]

/-!
## First-seen order and sort stability (for C7)
-/

/-- The names of the first occurrences in `l` of groups not already in
`seen`, in order of first occurrence. -/
def newOf : List StoredTx → List String → List String
  | [], _ => []
  | t :: ts, seen =>
    if groupName t ∈ seen then newOf ts seen
    else groupName t :: newOf ts (groupName t :: seen)

theorem newOf_congr : ∀ (l : List StoredTx) (s1 s2 : List String),
    (∀ x, x ∈ s1 ↔ x ∈ s2) → newOf l s1 = newOf l s2 := by
  intro l
  induction l with
  | nil => intro s1 s2 _; rfl
  | cons t ts ih =>
    intro s1 s2 h
    unfold newOf
    by_cases hm : groupName t ∈ s1
    · rw [if_pos hm, if_pos ((h _).mp hm), ih s1 s2 h]
    · rw [if_neg hm, if_neg (fun e => hm ((h _).mpr e))]
      rw [ih (groupName t :: s1) (groupName t :: s2)
        (by intro x; simp [h x])]

theorem mem_newOf : ∀ (l : List StoredTx) (seen : List String) (n : String),
    n ∈ newOf l seen → n ∉ seen := by
  intro l
  induction l with
  | nil => intro seen n h; cases h
  | cons t ts ih =>
    intro seen n h
    unfold newOf at h
    by_cases hm : groupName t ∈ seen
    · rw [if_pos hm] at h
      exact ih seen n h
    · rw [if_neg hm] at h
      rcases List.mem_cons.mp h with rfl | h2
      · exact hm
      · have h3 := ih _ n h2
        intro hn
        exact h3 (List.mem_cons_of_mem _ hn)

theorem newOf_cons (t : StoredTx) (ts : List StoredTx) (seen : List String) :
    newOf (t :: ts) seen =
      if groupName t ∈ seen then newOf ts seen
      else groupName t :: newOf ts (groupName t :: seen) := rfl

theorem namesOf_foldl : ∀ (l : List StoredTx) (m : List CatGroup),
    namesOf (l.foldl groupStep m) = namesOf m ++ newOf l (namesOf m) := by
  intro l
  induction l with
  | nil => intro m; simp [newOf]
  | cons t ts ih =>
    intro m
    rw [List.foldl_cons]
    have hstep : groupStep m t = addToMap m (groupName t) t.amount (groupColor t) := rfl
    rw [ih, hstep, namesOf_addToMap, newOf_cons]
    by_cases hm : groupName t ∈ namesOf m
    · simp only [if_pos hm]
    · simp only [if_neg hm]
      rw [newOf_congr ts (namesOf m ++ [groupName t])
        (groupName t :: namesOf m) (by intro x; simp [or_comm])]
      simp

/-- The index of the first transaction of a group (first-seen order). -/
def fsi (l : List StoredTx) (n : String) : ℕ :=
  l.findIdx (fun t => groupName t == n)

theorem fsi_cons (t : StoredTx) (ts : List StoredTx) (n : String) :
    fsi (t :: ts) n = if groupName t = n then 0 else fsi ts n + 1 := by
  unfold fsi
  rw [List.findIdx_cons]
  by_cases h : groupName t = n
  · have hb : (groupName t == n) = true := by simp [h]
    rw [hb, if_pos h]
    rfl
  · have hb : (groupName t == n) = false := by simp [h]
    rw [hb, if_neg h]
    rfl

theorem pairwise_fsi_newOf : ∀ (l : List StoredTx) (seen : List String),
    (newOf l seen).Pairwise (fun a b => fsi l a < fsi l b) := by
  intro l
  induction l with
  | nil => intro seen; simp [newOf]
  | cons t ts ih =>
    intro seen
    unfold newOf
    by_cases hm : groupName t ∈ seen
    · rw [if_pos hm]
      apply (ih seen).imp_of_mem
      intro a b ha hb hab
      have hna : ¬groupName t = a := fun e => (mem_newOf ts seen a ha) (e ▸ hm)
      have hnb : ¬groupName t = b := fun e => (mem_newOf ts seen b hb) (e ▸ hm)
      rw [fsi_cons, fsi_cons, if_neg hna, if_neg hnb]
      exact Nat.add_lt_add_right hab 1
    · rw [if_neg hm]
      apply List.Pairwise.cons
      · intro b hb
        have hnb : ¬groupName t = b := fun e => (mem_newOf ts _ b hb)
          (by rw [← e]; exact List.mem_cons_self _ _)
        rw [fsi_cons, fsi_cons, if_pos rfl, if_neg hnb]
        exact Nat.succ_pos _
      · apply (ih (groupName t :: seen)).imp_of_mem
        intro a b ha hb hab
        have hna : ¬groupName t = a := fun e => (mem_newOf ts _ a ha)
          (by rw [← e]; exact List.mem_cons_self _ _)
        have hnb : ¬groupName t = b := fun e => (mem_newOf ts _ b hb)
          (by rw [← e]; exact List.mem_cons_self _ _)
        rw [fsi_cons, fsi_cons, if_neg hna, if_neg hnb]
        exact Nat.add_lt_add_right hab 1

theorem pairwise_fsi_buildMap (rows : List StoredTx) :
    (namesOf (buildMap rows)).Pairwise (fun a b => fsi rows a < fsi rows b) := by
  rw [buildMap_eq_foldl, namesOf_foldl]
  show ([] ++ newOf rows []).Pairwise _
  rw [List.nil_append]
  exact pairwise_fsi_newOf rows []

theorem insertDesc_pairwise (f : ExpenseData → ℕ) (x : ExpenseData) :
    ∀ l : List ExpenseData,
    l.Pairwise (fun a b => b.value < a.value ∨ (a.value = b.value ∧ f a < f b)) →
    (∀ y ∈ l, f x < f y) →
    (insertDesc x l).Pairwise
      (fun a b => b.value < a.value ∨ (a.value = b.value ∧ f a < f b)) := by
  intro l
  induction l with
  | nil => intro _ _; simp [insertDesc]
  | cons y ys ih =>
    intro hl hx
    obtain ⟨hy, hys⟩ := List.pairwise_cons.mp hl
    unfold insertDesc
    by_cases hle : y.value ≤ x.value
    · rw [if_pos hle]
      apply List.Pairwise.cons
      · intro z hz
        rcases List.mem_cons.mp hz with rfl | hz2
        · rcases lt_or_eq_of_le hle with hlt | heq
          · exact Or.inl hlt
          · exact Or.inr ⟨heq.symm, hx z (List.mem_cons_self z ys)⟩
        · have hyz := hy z hz2
          have hzy : z.value ≤ y.value := by
            rcases hyz with h1 | h1
            · exact le_of_lt h1
            · exact le_of_eq h1.1.symm
          have hzx : z.value ≤ x.value := le_trans hzy hle
          rcases lt_or_eq_of_le hzx with hlt | heq
          · exact Or.inl hlt
          · exact Or.inr ⟨heq.symm, hx z (List.mem_cons_of_mem y hz2)⟩
      · exact hl
    · rw [if_neg hle]
      apply List.Pairwise.cons
      · intro z hz
        rcases (mem_insertDesc x z ys).mp hz with rfl | hz2
        · exact Or.inl (lt_of_not_le hle)
        · exact hy z hz2
      · exact ih hys (fun y2 hy2 => hx y2 (List.mem_cons_of_mem y hy2))

theorem sortByValueDesc_pairwise (f : ExpenseData → ℕ) :
    ∀ l : List ExpenseData,
    l.Pairwise (fun a b => f a < f b) →
    (sortByValueDesc l).Pairwise
      (fun a b => b.value < a.value ∨ (a.value = b.value ∧ f a < f b)) := by
  intro l
  induction l with
  | nil => intro _; simp [sortByValueDesc]
  | cons x xs ih =>
    intro hl
    obtain ⟨hx, hxs⟩ := List.pairwise_cons.mp hl
    unfold sortByValueDesc
    apply insertDesc_pairwise f x _ (ih hxs)
    intro y hy
    exact hx y ((mem_sortByValueDesc y xs).mp hy)

/-- The three-expense example of the spec: 100, 200, 200 in categories
A, B, B. -/
def abbExpenses : List StoredTx :=
  [⟨100, .expense, some "A", none⟩, ⟨200, .expense, some "B", none⟩,
   ⟨200, .expense, some "B", none⟩]

/-!
## Claim C7 (descending sort with first-seen tie-break)
-/

/-- C7, confirmed: the breakdown is pairwise ordered by strictly greater
summed value, or equal value with the earlier group first — where "earlier"
is the index of the group's first transaction among the expense rows
(first-seen order, the insertion order of the map); and the concrete
100/200/200 scenario yields B (400) before A (100). -/
theorem c7_sorted_descending_stable :
    (∀ txs : List StoredTx,
      (loadExpenseData txs).Pairwise (fun a b =>
        b.value < a.value ∨ (a.value = b.value ∧
          fsi (txs.filter (fun t => t.type == .expense)) a.name <
            fsi (txs.filter (fun t => t.type == .expense)) b.name))) ∧
    (loadExpenseData abbExpenses).map (fun e => (e.name, e.value)) =
      [("B", (400 : ℚ)), ("A", 100)] := by
  constructor
  · intro txs
    unfold loadExpenseData chartData
    apply sortByValueDesc_pairwise
      (fun e => fsi (txs.filter (fun t => t.type == .expense)) e.name)
    have h1 := pairwise_fsi_buildMap (txs.filter (fun t => t.type == .expense))
    unfold namesOf at h1
    have h2 := (List.pairwise_map).mp h1
    have hsnd : ((buildMap (txs.filter (fun t => t.type == .expense))).enum).map
        Prod.snd = buildMap (txs.filter (fun t => t.type == .expense)) :=
      List.enumFrom_map_snd 0 _
    rw [← hsnd] at h2
    have h3 := (List.pairwise_map).mp h2
    apply (List.pairwise_map).mpr
    apply h3.imp_of_mem
    intro p q _ _ hpq
    exact hpq
  · have hval : loadExpenseData abbExpenses =
        [⟨"B", 400, "#6b7280"⟩, ⟨"A", 100, "#6b7280"⟩] := by
      simp [loadExpenseData, chartData, buildMap, addToMap, groupName,
        groupColor, sortByValueDesc, insertDesc, FALLBACK_COLORS, abbExpenses]
      norm_num
    rw [hval]
    rfl

/-!
## Claim C8 (group colors)
-/

theorem groupColor_ne_empty (t : StoredTx) : groupColor t ≠ "" := by
  unfold groupColor
  cases t.categoryColor with
  | none => simp
  | some c =>
    by_cases h : c = ""
    · simp [h]
    · simp [h]

/-- An expense with a category that has a stored color. -/
def coloredTx : StoredTx := ⟨5, .expense, some "A", some "#ff0000"⟩

/-- C8, counterexample: the claim says a group whose category has no stored
color gets its color from the fallback palette.  In fact the absent color
is replaced by the constant `'#6b7280'` *before* the palette lookup, so the
`data.color || FALLBACK_COLORS[...]` fallback never fires: an uncategorized
expense yields the color `#6b7280`, which is not in the palette. -/
theorem c8_counterexample :
    loadExpenseData [⟨5, .expense, none, none⟩] =
      [⟨"Uncategorized", 5, "#6b7280"⟩] ∧
    "#6b7280" ∉ FALLBACK_COLORS := by
  refine ⟨rfl, ?_⟩
  simp [FALLBACK_COLORS]

/-- C8, amended: every group's color is `groupColor` of the group's first
expense transaction — the category's stored color when present and
non-empty, and the constant `'#6b7280'` otherwise; the fallback palette is
dead code because `groupColor` is never the empty string. -/
theorem c8_group_color (txs : List StoredTx) (g : ExpenseData)
    (hg : g ∈ loadExpenseData txs) :
    ∃ t, (txs.filter (fun t => t.type == .expense)).find?
        (fun t => groupName t == g.name) = some t ∧
      g.color = groupColor t := by
  unfold loadExpenseData at hg
  obtain ⟨grp, hgrp, hname, -, hcolor⟩ :=
    mem_chartData (txs.filter (fun t => t.type == .expense)) g hg
  have hfind := find?_name_of_mem (buildMap (txs.filter
    (fun t => t.type == .expense))) grp (buildMap_names_nodup _) hgrp
  have hcol : colorOf (buildMap (txs.filter (fun t => t.type == .expense)))
      grp.name = some grp.color := by
    unfold colorOf
    rw [hfind]
    rfl
  rw [buildMap_colorOf] at hcol
  cases hf : (txs.filter (fun t => t.type == .expense)).find?
      (fun t => groupName t == grp.name) with
  | none => rw [hf] at hcol; cases hcol
  | some t =>
    rw [hf] at hcol
    have hcol2 : groupColor t = grp.color :=
      Option.some.inj (show some (groupColor t) = some grp.color from hcol)
    refine ⟨t, ?_, ?_⟩
    · rw [hname]
      exact hf
    · rcases hcolor with hempty | hc
      · exfalso
        apply groupColor_ne_empty t
        rw [hcol2, hempty]
      · rw [hc, ← hcol2]

theorem c8_group_color_witness :
    ∃ t, (([coloredTx] : List StoredTx).filter
        (fun t => t.type == .expense)).find?
        (fun t => groupName t == (⟨"A", 5, "#ff0000"⟩ : ExpenseData).name) =
      some t ∧
      (⟨"A", 5, "#ff0000"⟩ : ExpenseData).color = groupColor t :=
  c8_group_color [coloredTx] ⟨"A", 5, "#ff0000"⟩ (by
    have h : loadExpenseData [coloredTx] = [⟨"A", 5, "#ff0000"⟩] := rfl
    rw [h]
    exact List.mem_singleton_self _)

end PocketLedger
